import Mathlib

/-!
# SFTP user record (`weed/sftpd/user/user.go`)

A shallow embedding of the `user` package: the `User` record, its constructor
`NewUser` and its five mutators, together with the not-found error.

Modelling conventions.

* A Go `string` is a Lean `String`, a Go `[]string` is a `List String` (a nil
  slice and an empty slice are both `[]`).  This is the list of the elements
  of the slice; the section on slices in memory embeds the same methods over
  slice headers and backing arrays, where two slices may share an array.
* A Go `map[string][]string` is a partial function from keys to values; the
  nil map is `none`, an initialised map is `some m`.  Reading and deleting on
  the nil map are allowed in Go, writing to it panics.
* A method with a pointer receiver that mutates the record becomes a function
  that returns the new record (and the method's result, when it has one).
* `rand.Intn(59000)` is not a function of the program state: its outcome is an
  explicit argument `n` of `NewUser`.
* `uint32(x)` is reduction modulo `2 ^ 32`.
* `filepath.Join` and `fmt.Sprintf` are library functions: they are embedded
  from the Go library, on Unix and on the formats used here.
* The interface `Store` has no implementation in this file of the package; the
  directory at the end of the definitions follows the written contract.
-/

namespace Sftpd

/-! ## Data model -/

/-- The Go type `map[string][]string` once initialised: a partial function. -/
abbrev PermTable := String → Option (List String)

/-- The empty table, `make(map[string][]string)`. -/
def PermTable.empty : PermTable := fun _ => none

/-- The table after `m[path] = permissions`. -/
def PermTable.assign (m : PermTable) (path : String) (permissions : List String) : PermTable :=
  fun q => if q = path then some permissions else m q

/-- The table after `delete(m, path)`. -/
def PermTable.delete (m : PermTable) (path : String) : PermTable :=
  fun q => if q = path then none else m q

/-- The struct `User`. -/
structure User where
  Username : String
  Password : String
  PublicKeys : List String
  HomeDir : String
  Permissions : Option PermTable
  Uid : Nat
  Gid : Nat

/-- The zero value `User{}` of the struct: empty strings, nil slice, nil map
and zero ids. -/
def zeroUser : User :=
  { Username := ""
    Password := ""
    PublicKeys := []
    HomeDir := ""
    Permissions := none
    Uid := 0
    Gid := 0 }

/-- The two-valued read `v, exists := u.Permissions[path]`: `some v` when the
table has an entry for `path`, `none` when it has not (always so on the nil
map). -/
def User.permission (u : User) (path : String) : Option (List String) :=
  match u.Permissions with
  | none => none
  | some m => m path

/-- The struct `UserNotFoundError`. -/
structure UserNotFoundError where
  Username : String

/-- The formatting loop of `fmt.Sprintf`, for formats whose verbs are all `%s`
or `%%` and operands that are strings: the verb `%s` is replaced by the next
operand, printed as it is, `%%` by a percent sign, and every other byte of the
format is copied.  With no operand left for a verb, Go prints `%!s(MISSING)`. -/
def sprintfLoop : List Char → List String → List Char
  | [], _ => []
  | [c], _ => [c]
  | c :: d :: rest, args =>
    if c = '%' ∧ d = 's' then
      match args with
      | a :: more => a.data ++ sprintfLoop rest more
      | [] => "%!s(MISSING)".data ++ sprintfLoop rest []
    else if c = '%' ∧ d = '%' then '%' :: sprintfLoop rest args
    else c :: sprintfLoop (d :: rest) args

/-- The function `fmt.Sprintf` on such a format and such operands. -/
def Sprintf (format : String) (args : List String) : String :=
  String.mk (sprintfLoop format.data args)

/-- The method `(*UserNotFoundError).Error`:
`fmt.Sprintf("user not found: %s", e.Username)`. -/
def UserNotFoundError.Error (e : UserNotFoundError) : String :=
  Sprintf "user not found: %s" [e.Username]

/-! ## `filepath.Join` (Unix) -/

/-- The test `os.IsPathSeparator` on Unix. -/
def isPathSeparator (c : Char) : Bool := c == '/'

/-- The backtracking step of `Clean` on a `..` element, on the write index:
from `w`, `for out.w > dotdot && !IsPathSeparator(out.index(out.w)) { out.w-- }`. -/
def backtrack (buf : List Char) (dotdot : Nat) : Nat → Nat
  | 0 => 0
  | w + 1 =>
    if w + 1 > dotdot && !isPathSeparator (buf.getD (w + 1) '/') then
      backtrack buf dotdot w
    else w + 1

/-- The path element at the head of `path`: the bytes copied by
`for ; r < n && !IsPathSeparator(path[r]); r++ { out.append(path[r]) }`. -/
def element (path : List Char) : List Char :=
  path.takeWhile fun c => !isPathSeparator c

/-- What is left to read after that copy loop. -/
def afterElement (path : List Char) : List Char :=
  path.dropWhile fun c => !isPathSeparator c

/-- The main loop `for r < n { switch ... }` of `filepath.Clean`.  `rest` is
`path[r:]`, `out` is the output written so far (`out.w` is its length) and
`dotdot` the index where `..` must stop.  Every iteration reads at least one
byte, so `fuel = len(rest)` iterations are enough; with no fuel left the
output is returned as it is. -/
def cleanLoop (rooted : Bool) : Nat → List Char → List Char → Nat → List Char
  | 0, _, out, _ => out
  | _ + 1, [], out, _ => out
  | fuel + 1, c :: t, out, dotdot =>
    if isPathSeparator c then
      -- empty path element
      cleanLoop rooted fuel t out dotdot
    else if c = '.' ∧ (t = [] ∨ (t.head?.map isPathSeparator) = some true) then
      -- . element
      cleanLoop rooted fuel t out dotdot
    else if c = '.' ∧ t.head? = some '.' ∧
        (t.tail = [] ∨ (t.tail.head?.map isPathSeparator) = some true) then
      -- .. element: remove to last separator
      if out.length > dotdot then
        -- can backtrack
        cleanLoop rooted fuel t.tail (out.take (backtrack out dotdot (out.length - 1))) dotdot
      else if !rooted then
        -- cannot backtrack, but not rooted, so append .. element
        let out1 := (if out.length > 0 then out ++ ['/'] else out) ++ ['.', '.']
        cleanLoop rooted fuel t.tail out1 out1.length
      else
        cleanLoop rooted fuel t.tail out dotdot
    else
      -- real path element: add slash if needed, copy element
      let out1 :=
        if (rooted && out.length != 1) || (!rooted && out.length != 0) then out ++ ['/'] else out
      cleanLoop rooted fuel (afterElement (c :: t)) (out1 ++ element (c :: t)) dotdot

/-- The function `filepath.Clean` on Unix (no volume name, separator `/`). -/
def Clean (path : String) : String :=
  match path.data with
  | [] => "."
  | c :: t =>
    let rooted := isPathSeparator c
    let out :=
      if rooted then cleanLoop true (c :: t).length t ['/'] 1
      else cleanLoop false (c :: t).length (c :: t) [] 0
    -- Turn empty string into "."
    String.mk (if out.length = 0 then ['.'] else out)

/-- The function `filepath.Join` on Unix, at two elements: the elements from
the first non-empty one on are joined with `/` and the result is cleaned; with
no non-empty element the result is the empty string. -/
def Join (a b : String) : String :=
  if a ≠ "" then Clean (a ++ "/" ++ b)
  else if b ≠ "" then Clean b
  else ""

/-! ## Constructor and mutators -/

/-- The function `NewUser`; `n` is the outcome of `rand.Intn(59000)`. -/
def NewUser (username : String) (n : Nat) : User :=
  let randomId := 1000 + n
  { Username := username
    Password := ""
    PublicKeys := []
    Permissions := some PermTable.empty
    HomeDir := Join "/home" username
    Uid := randomId % 2 ^ 32
    Gid := randomId % 2 ^ 32 }

/-- The method `SetPassword`. -/
def SetPassword (u : User) (password : String) : User :=
  { u with Password := password }

/-- The loop of `AddPublicKey`: `true` when it returns early because some
existing key equals `key`. -/
def keyExists (key : String) : List String → Bool
  | [] => false
  | existingKey :: rest => if existingKey = key then true else keyExists key rest

/-- The method `AddPublicKey`, on the elements of the key list. What `append`
does to the backing array is in `Mem.AddPublicKey`. -/
def AddPublicKey (u : User) (key : String) : User :=
  if keyExists key u.PublicKeys then u
  else { u with PublicKeys := u.PublicKeys ++ [key] }

/-- The loop of `RemovePublicKey`: the index `i` at which the `range` loop
first finds `existingKey == key`, counted from `i` on. -/
def keyIndex (key : String) : List String → Nat → Option Nat
  | [], _ => none
  | existingKey :: rest, i => if existingKey = key then some i else keyIndex key rest (i + 1)

/-- The body of the `if` in `RemovePublicKey`:
`keys[i] = keys[len(keys)-1]; keys = keys[:len(keys)-1]`.  It is run only with
`i < len(keys)`; on the empty list, where Go would panic, the list is
returned. -/
def swapRemove (keys : List String) (i : Nat) : List String :=
  match keys[keys.length - 1]? with
  | some last => (keys.set i last).take (keys.length - 1)
  | none => keys

/-- The method `RemovePublicKey`, on the elements of the key list: the new
record and the returned boolean. The write into the backing array is in
`Mem.RemovePublicKey`. -/
def RemovePublicKey (u : User) (key : String) : User × Bool :=
  match keyIndex key u.PublicKeys 0 with
  | some i => ({ u with PublicKeys := swapRemove u.PublicKeys i }, true)
  | none => (u, false)

/-- The method `SetPermission`; `none` is the run-time panic
"assignment to entry in nil map". -/
def SetPermission (u : User) (path : String) (permissions : List String) : Option User :=
  match u.Permissions with
  | none => none
  | some m => some { u with Permissions := some (m.assign path permissions) }

/-- The method `RemovePermission`: the new record and the returned boolean.
On the nil map the read finds no entry. -/
def RemovePermission (u : User) (path : String) : User × Bool :=
  match u.permission path with
  | some _ => ({ u with Permissions := u.Permissions.map fun m => m.delete path }, true)
  | none => (u, false)

/-! ## Sequences of mutator calls -/

/-- One call of one of the five mutators, with its arguments. -/
inductive Mutation where
  | setPassword (password : String)
  | addPublicKey (key : String)
  | removePublicKey (key : String)
  | setPermission (path : String) (permissions : List String)
  | removePermission (path : String)

/-- The record after one mutator call; `none` when the call panics. -/
def Mutation.apply (u : User) : Mutation → Option User
  | .setPassword password => some (SetPassword u password)
  | .addPublicKey key => some (AddPublicKey u key)
  | .removePublicKey key => some (RemovePublicKey u key).1
  | .setPermission path permissions => SetPermission u path permissions
  | .removePermission path => some (RemovePermission u path).1

/-- The record after a sequence of mutator calls, run from left to right;
`none` when one of them panics. -/
def runMutations (u : User) : List Mutation → Option User
  | [] => some u
  | m :: rest =>
    match m.apply u with
    | none => none
    | some v => runMutations v rest

/-! ## The storage contract

The interface `Store` is only declared in `user.go`; its implementations are
in other files of the repository. -/

/-- Modelled from the spec: the implementation of the interface `Store` is
missing. The stored state of a user directory keeps at most one record for
each username. -/
abbrev Directory := String → Option User

/-- Modelled from the spec: the implementation of `Store.SaveUser` is missing.
"Save(record): upserts (creates or fully replaces) the stored record for
`record.username`." -/
def Directory.SaveUser (d : Directory) (user : User) : Directory :=
  fun username => if username = user.Username then some user else d username

/-- Modelled from the spec: the implementation of `Store.GetUser` is missing.
"Lookup(username) → UserRecord: fails with `NotFound` when no such user
exists. Must return a fully-populated record (all fields as persisted)." -/
def Directory.GetUser (d : Directory) (username : String) : Except UserNotFoundError User :=
  match d username with
  | some user => .ok user
  | none => .error { Username := username }

/-! ## Slices in memory

The definitions above take a `[]string` for the list of its elements. In Go a
slice is a header (array, offset, length, capacity) over a backing array, and
two slices may share one array: `SetPermission` stores the header it is given
without copying, `RemovePublicKey` writes into the array of the key list, and
`append` in `AddPublicKey` writes into it too when there is spare capacity.
The definitions of this section embed the same methods over an explicit
memory, so that such sharing is visible. -/

namespace Mem

/-- A slice header of type `[]string`: the backing array, the offset of the
first element in it, the length and the capacity. -/
structure Slice where
  ptr : Nat
  off : Nat
  len : Nat
  cap : Nat

/-- The nil slice: no backing array, length and capacity zero (the address
is not read). -/
def nilSlice : Slice := { ptr := 0, off := 0, len := 0, cap := 0 }

/-- The memory: the backing arrays allocated so far, by address. -/
abbrev Heap := List (List String)

/-- The backing array at an address. -/
def arrayAt (h : Heap) (ptr : Nat) : List String := h.getD ptr []

/-- The elements of a slice, `s[0], ..., s[len(s)-1]`. -/
def readSlice (h : Heap) (s : Slice) : List String :=
  ((arrayAt h s.ptr).drop s.off).take s.len

/-- The memory after the write of `v` into cell `i` of the array at `ptr`. -/
def writeCell (h : Heap) (ptr i : Nat) (v : String) : Heap :=
  h.set ptr ((arrayAt h ptr).set i v)

/-- The guarantee Go gives for every slice: the length is at most the capacity
and the capacity fits the backing array. -/
def Slice.WF (h : Heap) (s : Slice) : Prop :=
  s.len ≤ s.cap ∧ s.off + s.cap ≤ (arrayAt h s.ptr).length

instance Slice.decidableWF (h : Heap) (s : Slice) : Decidable (s.WF h) :=
  inferInstanceAs (Decidable (_ ∧ _))

/-- The capacity rule of the Go runtime for a slice that grows, below 256
elements and before the rounding to an allocation size class: the required
length if it exceeds twice the old capacity, twice the old capacity
otherwise. -/
def growslice (oldCap newLen : Nat) : Nat :=
  if newLen > oldCap + oldCap then newLen else oldCap + oldCap

/-- The built-in `append(s, key)`. With spare capacity the key is written in
place into the backing array of `s`; otherwise a new array is allocated, of a
capacity chosen by the runtime (`grow`, from the old capacity and the required
length) and at least the required length, the elements are copied, and the
rest of the array holds the zero value. -/
def append (grow : Nat → Nat → Nat) (h : Heap) (s : Slice) (key : String) : Heap × Slice :=
  if s.len < s.cap then
    (writeCell h s.ptr (s.off + s.len) key, { s with len := s.len + 1 })
  else
    let newcap := max (s.len + 1) (grow s.cap (s.len + 1))
    (h ++ [readSlice h s ++ [key] ++ List.replicate (newcap - (s.len + 1)) ""],
      { ptr := h.length, off := 0, len := s.len + 1, cap := newcap })

/-- The struct `User`, with slice headers for its `[]string` values. -/
structure User where
  Username : String
  Password : String
  PublicKeys : Slice
  HomeDir : String
  Permissions : Option (String → Option Slice)
  Uid : Nat
  Gid : Nat

/-- A record together with the memory its slices point into. -/
structure State where
  heap : Heap
  user : User

/-- The two-valued read `v, exists := u.Permissions[path]`, as a header. -/
def User.permission (u : User) (path : String) : Option Slice :=
  match u.Permissions with
  | none => none
  | some m => m path

/-- The tokens read from the entry for `path`, when there is one. -/
def State.tokens (st : State) (path : String) : Option (List String) :=
  (st.user.permission path).map (readSlice st.heap)

/-- The function `NewUser`; `n` is the outcome of `rand.Intn(59000)`. It
allocates no backing array: `PublicKeys` is the nil slice. -/
def NewUser (username : String) (n : Nat) : User :=
  let randomId := 1000 + n
  { Username := username
    Password := ""
    PublicKeys := nilSlice
    Permissions := some fun _ => none
    HomeDir := Join "/home" username
    Uid := randomId % 2 ^ 32
    Gid := randomId % 2 ^ 32 }

/-- The method `SetPassword`. -/
def SetPassword (st : State) (password : String) : State :=
  { st with user := { st.user with Password := password } }

/-- The method `AddPublicKey`. -/
def AddPublicKey (grow : Nat → Nat → Nat) (st : State) (key : String) : State :=
  if keyExists key (readSlice st.heap st.user.PublicKeys) then st
  else
    { heap := (append grow st.heap st.user.PublicKeys key).1
      user := { st.user with PublicKeys := (append grow st.heap st.user.PublicKeys key).2 } }

/-- The method `RemovePublicKey`: at the first index `i` with
`existingKey == key`, cell `i` of the key list is overwritten in place with
its last element and the header loses one element. -/
def RemovePublicKey (st : State) (key : String) : State × Bool :=
  match keyIndex key (readSlice st.heap st.user.PublicKeys) 0 with
  | some i =>
    ({ heap := writeCell st.heap st.user.PublicKeys.ptr (st.user.PublicKeys.off + i)
        ((arrayAt st.heap st.user.PublicKeys.ptr).getD
          (st.user.PublicKeys.off + (st.user.PublicKeys.len - 1)) "")
       user := { st.user with
        PublicKeys := { st.user.PublicKeys with len := st.user.PublicKeys.len - 1 } } }, true)
  | none => (st, false)

/-- The method `SetPermission`: the header is stored as it is, without a copy
of the elements; `none` is the panic on the nil map. -/
def SetPermission (st : State) (path : String) (permissions : Slice) : Option State :=
  match st.user.Permissions with
  | none => none
  | some m =>
    some { st with user := { st.user with
      Permissions := some fun q => if q = path then some permissions else m q } }

/-- The method `RemovePermission`. -/
def RemovePermission (st : State) (path : String) : State × Bool :=
  match st.user.permission path with
  | some _ =>
    ({ st with user := { st.user with
      Permissions := st.user.Permissions.map fun m q => if q = path then none else m q } }, true)
  | none => (st, false)

/-- One call of one of the five mutators, with its arguments. -/
inductive Mutation where
  | setPassword (password : String)
  | addPublicKey (key : String)
  | removePublicKey (key : String)
  | setPermission (path : String) (permissions : Slice)
  | removePermission (path : String)

/-- The state after one mutator call; `none` when the call panics. -/
def Mutation.apply (grow : Nat → Nat → Nat) (st : State) : Mutation → Option State
  | .setPassword password => some (SetPassword st password)
  | .addPublicKey key => some (AddPublicKey grow st key)
  | .removePublicKey key => some (RemovePublicKey st key).1
  | .setPermission path permissions => SetPermission st path permissions
  | .removePermission path => some (RemovePermission st path).1

/-- The state after a sequence of mutator calls, run from left to right. -/
def runMutations (grow : Nat → Nat → Nat) (st : State) : List Mutation → Option State
  | [] => some st
  | m :: rest =>
    match m.apply grow st with
    | none => none
    | some v => runMutations grow v rest

/-- The state after `NewUser("alice")`, `AddPublicKey` of `a`, `b` and `c`, and
the call `u.SetPermission("/p", u.PublicKeys)`, which stores the header of the
key list in the table. -/
def sharedKeys : Option State :=
  let st := AddPublicKey growslice (AddPublicKey growslice (AddPublicKey growslice
    { heap := [], user := NewUser "alice" 0 } "a") "b") "c"
  SetPermission st "/p" st.user.PublicKeys

/-- The state after the calls of `sharedKeys` and `RemovePublicKey("c")`: the
key list is `a`, `b` with spare capacity in its array. -/
def sharedKeysSpare : Option State :=
  sharedKeys.map fun st => (RemovePublicKey st "c").1

end Mem

/-! ## Lemmas on the two key loops -/

theorem keyExists_iff (key : String) (keys : List String) :
    keyExists key keys = true ↔ key ∈ keys := by
  induction keys with
  | nil => simp [keyExists]
  | cons a rest ih =>
    by_cases h : a = key
    · simp [keyExists, h]
    · simp [keyExists, h, ih, Ne.symm h]

theorem keyIndex_none (key : String) (keys : List String) (i : Nat) :
    keyIndex key keys i = none ↔ key ∉ keys := by
  induction keys generalizing i with
  | nil => simp [keyIndex]
  | cons a rest ih =>
    by_cases h : a = key
    · simp [keyIndex, h]
    · simp [keyIndex, h, ih, Ne.symm h]

theorem keyIndex_some (key : String) (keys : List String) (i : Nat) (h : key ∈ keys) :
    keyIndex key keys i = some (i + keys.indexOf key) := by
  induction keys generalizing i with
  | nil => simp at h
  | cons a rest ih =>
    by_cases ha : a = key
    · simp [keyIndex, ha]
    · have hr : key ∈ rest := by
        rcases List.mem_cons.1 h with h1 | h1
        · exact absurd h1.symm ha
        · exact h1
      simp [keyIndex, ha, ih (i + 1) hr, List.indexOf_cons_ne _ (Ne.symm ha)]
      omega

/-- On a list that ends in `last`, overwriting position `i` with the last
element and truncating gives the front part with `last` at position `i`, or
the front part itself when `i` is the last position. -/
theorem swapRemove_concat (init : List String) (last : String) (i : Nat) :
    swapRemove (init ++ [last]) i = if i < init.length then init.set i last else init := by
  unfold swapRemove
  simp
  split
  · rename_i h
    rw [List.set_append_left _ _ h]
    simp [List.take_append_of_le_length]
  · rename_i h
    rw [List.set_append_right _ _ (by omega)]
    simp [List.take_append_of_le_length]

/-- Overwrite-and-truncate at a valid index is, up to order, the erasure of
that index. -/
theorem swapRemove_perm (keys : List String) (i : Nat) (h : i < keys.length) :
    (swapRemove keys i).Perm (keys.eraseIdx i) := by
  rcases List.eq_nil_or_concat keys with rfl | ⟨init, last, rfl⟩
  · simp at h
  · rw [List.concat_eq_append] at h ⊢
    rw [swapRemove_concat]
    split
    · rename_i hi
      rw [List.eraseIdx_append_of_lt_length hi, List.set_eq_take_append_cons_drop, if_pos hi,
        List.eraseIdx_eq_take_drop_succ]
      simp only [List.append_assoc]
      refine List.Perm.append_left _ ?_
      exact (List.perm_append_singleton last _).symm
    · rename_i hi
      simp at h
      have : i = init.length := by omega
      subst this
      rw [List.eraseIdx_append_of_length_le (le_refl _)]
      simp

/-- What `RemovePublicKey` does when the key is absent. -/
theorem removePublicKey_absent (u : User) (k : String) (hk : k ∉ u.PublicKeys) :
    RemovePublicKey u k = (u, false) := by
  simp [RemovePublicKey, (keyIndex_none k u.PublicKeys 0).2 hk]

/-- What `RemovePublicKey` does when the key is present. -/
theorem removePublicKey_present (u : User) (k : String) (hk : k ∈ u.PublicKeys) :
    RemovePublicKey u k =
      ({ u with PublicKeys := swapRemove u.PublicKeys (u.PublicKeys.indexOf k) }, true) := by
  simp [RemovePublicKey, keyIndex_some k u.PublicKeys 0 hk]

/-- The list left by a successful `RemovePublicKey` is, up to order, the old
list with its first occurrence of the key erased. -/
theorem removePublicKey_perm_erase (u : User) (k : String) (hk : k ∈ u.PublicKeys) :
    (RemovePublicKey u k).1.PublicKeys.Perm (u.PublicKeys.erase k) := by
  rw [removePublicKey_present u k hk, ← List.eraseIdx_indexOf_eq_erase]
  exact swapRemove_perm _ _ (List.indexOf_lt_length.2 hk)

theorem addPublicKey_present (u : User) (k : String) (hk : k ∈ u.PublicKeys) :
    AddPublicKey u k = u := by
  simp [AddPublicKey, (keyExists_iff k u.PublicKeys).2 hk]

theorem addPublicKey_absent (u : User) (k : String) (hk : k ∉ u.PublicKeys) :
    AddPublicKey u k = { u with PublicKeys := u.PublicKeys ++ [k] } := by
  have : keyExists k u.PublicKeys = false := by
    cases h : keyExists k u.PublicKeys
    · rfl
    · exact absurd ((keyExists_iff k u.PublicKeys).1 h) hk
  simp [AddPublicKey, this]

theorem mem_addPublicKey (u : User) (k x : String) :
    x ∈ (AddPublicKey u k).PublicKeys ↔ x = k ∨ x ∈ u.PublicKeys := by
  by_cases hk : k ∈ u.PublicKeys
  · rw [addPublicKey_present u k hk]
    constructor
    · exact Or.inr
    · rintro (rfl | h)
      · exact hk
      · exact h
  · rw [addPublicKey_absent u k hk]
    simp [or_comm]

/-! ## The key list -/

/-- C1: duplicate-freeness of the key list is an invariant. The record built by
`NewUser` has the empty, hence duplicate-free, key list; and on a record whose
key list is duplicate-free, the list is still duplicate-free after
`AddPublicKey k` and after `RemovePublicKey k`, for every key `k`. -/
theorem publicKeys_nodup_invariant :
    (∀ (username : String) (n : Nat),
      (NewUser username n).PublicKeys = [] ∧ (NewUser username n).PublicKeys.Nodup) ∧
    (∀ (u : User) (k : String), u.PublicKeys.Nodup →
      (AddPublicKey u k).PublicKeys.Nodup ∧ (RemovePublicKey u k).1.PublicKeys.Nodup) := by
  refine ⟨fun username n => ⟨rfl, List.nodup_nil⟩, fun u k hnd => ⟨?_, ?_⟩⟩
  · by_cases hk : k ∈ u.PublicKeys
    · rw [addPublicKey_present u k hk]; exact hnd
    · rw [addPublicKey_absent u k hk]
      exact List.Nodup.append hnd (List.nodup_singleton k) (by simpa using hk)
  · by_cases hk : k ∈ u.PublicKeys
    · exact (removePublicKey_perm_erase u k hk).nodup_iff.2 (hnd.erase k)
    · rw [removePublicKey_absent u k hk]; exact hnd

theorem publicKeys_nodup_invariant_witness :
    ({ NewUser "alice" 0 with PublicKeys := ["a", "b", "c"] } : User).PublicKeys.Nodup ∧
    (AddPublicKey { NewUser "alice" 0 with PublicKeys := ["a", "b", "c"] } "a").PublicKeys.Nodup ∧
    (RemovePublicKey { NewUser "alice" 0 with PublicKeys := ["a", "b", "c"] }
      "a").1.PublicKeys.Nodup :=
  ⟨by decide, publicKeys_nodup_invariant.2 _ "a" (by decide)⟩

/-- C2: on a record whose key list is duplicate-free, `RemovePublicKey k` with
`k` a member returns true, `k` is not a member afterwards, and every other key
is a member afterwards exactly when it was a member before. -/
theorem removePublicKey_member (u : User) (k : String)
    (hnd : u.PublicKeys.Nodup) (hk : k ∈ u.PublicKeys) :
    (RemovePublicKey u k).2 = true ∧
    k ∉ (RemovePublicKey u k).1.PublicKeys ∧
    ∀ x : String, x ≠ k → (x ∈ (RemovePublicKey u k).1.PublicKeys ↔ x ∈ u.PublicKeys) := by
  have hp := removePublicKey_perm_erase u k hk
  refine ⟨by rw [removePublicKey_present u k hk], ?_, fun x hx => ?_⟩
  · rw [hp.mem_iff, hnd.mem_erase_iff]
    exact fun h => h.1 rfl
  · rw [hp.mem_iff, hnd.mem_erase_iff]
    exact ⟨fun h => h.2, fun h => ⟨hx, h⟩⟩

theorem removePublicKey_member_witness :
    ({ NewUser "alice" 0 with PublicKeys := ["a", "b", "c"] } : User).PublicKeys.Nodup ∧
    "a" ∈ ({ NewUser "alice" 0 with PublicKeys := ["a", "b", "c"] } : User).PublicKeys ∧
    (RemovePublicKey { NewUser "alice" 0 with PublicKeys := ["a", "b", "c"] } "a").2 = true ∧
    "a" ∉ (RemovePublicKey { NewUser "alice" 0 with PublicKeys := ["a", "b", "c"] }
      "a").1.PublicKeys ∧
    ∀ x : String, x ≠ "a" →
      (x ∈ (RemovePublicKey { NewUser "alice" 0 with PublicKeys := ["a", "b", "c"] }
          "a").1.PublicKeys ↔
        x ∈ ({ NewUser "alice" 0 with PublicKeys := ["a", "b", "c"] } : User).PublicKeys) :=
  ⟨by decide, by decide, removePublicKey_member _ "a" (by decide) (by decide)⟩

/-- C3: `RemovePublicKey k` with `k` not a member of the key list returns false
and returns the record as it was: the key list (same elements, same order) and
every other field are unchanged. -/
theorem removePublicKey_not_member (u : User) (k : String) (hk : k ∉ u.PublicKeys) :
    (RemovePublicKey u k).2 = false ∧
    (RemovePublicKey u k).1.PublicKeys = u.PublicKeys ∧
    (RemovePublicKey u k).1 = u := by
  rw [removePublicKey_absent u k hk]
  exact ⟨rfl, rfl, rfl⟩

theorem removePublicKey_not_member_witness :
    "z" ∉ ({ NewUser "alice" 0 with PublicKeys := ["a", "b", "c"] } : User).PublicKeys ∧
    (RemovePublicKey { NewUser "alice" 0 with PublicKeys := ["a", "b", "c"] } "z").2 = false ∧
    (RemovePublicKey { NewUser "alice" 0 with PublicKeys := ["a", "b", "c"] }
      "z").1.PublicKeys = ["a", "b", "c"] ∧
    (RemovePublicKey { NewUser "alice" 0 with PublicKeys := ["a", "b", "c"] } "z").1 =
      { NewUser "alice" 0 with PublicKeys := ["a", "b", "c"] } :=
  ⟨by decide, removePublicKey_not_member _ "z" (by decide)⟩

/-- C4, as stated, fails: on a record whose key list already holds `"k"` twice,
two calls of `AddPublicKey "k"` leave the list `["k", "k"]`, in which `"k"`
occurs twice. -/
theorem addPublicKey_twice_counterexample :
    (AddPublicKey (AddPublicKey { NewUser "alice" 0 with PublicKeys := ["k", "k"] } "k")
      "k").PublicKeys = ["k", "k"] ∧
    ¬ ∀ (u : User) (k : String),
      (AddPublicKey (AddPublicKey u k) k).PublicKeys.count k = 1 ∧
      AddPublicKey (AddPublicKey u k) k = AddPublicKey u k := by
  refine ⟨by decide, fun h => ?_⟩
  have h1 := (h { NewUser "alice" 0 with PublicKeys := ["k", "k"] } "k").1
  revert h1
  decide

/-- C4, amended: for every record and key `k` the second call of
`AddPublicKey k` leaves the record exactly as the first call left it; and when
`k` occurs at most once in the key list of the record (as in every
duplicate-free list), `k` occurs exactly once after the two calls. -/
theorem addPublicKey_idempotent :
    (∀ (u : User) (k : String), AddPublicKey (AddPublicKey u k) k = AddPublicKey u k) ∧
    (∀ (u : User) (k : String), u.PublicKeys.count k ≤ 1 →
      (AddPublicKey (AddPublicKey u k) k).PublicKeys.count k = 1) := by
  have idem : ∀ (u : User) (k : String),
      AddPublicKey (AddPublicKey u k) k = AddPublicKey u k := fun u k =>
    addPublicKey_present _ k ((mem_addPublicKey u k k).2 (Or.inl rfl))
  refine ⟨idem, fun u k hc => ?_⟩
  rw [idem]
  by_cases hk : k ∈ u.PublicKeys
  · rw [addPublicKey_present u k hk]
    have := List.count_pos_iff.2 hk
    omega
  · rw [addPublicKey_absent u k hk]
    simp [List.count_eq_zero_of_not_mem hk]

theorem addPublicKey_idempotent_witness :
    ({ NewUser "alice" 0 with PublicKeys := ["a", "k"] } : User).PublicKeys.count "k" ≤ 1 ∧
    (AddPublicKey (AddPublicKey { NewUser "alice" 0 with PublicKeys := ["a", "k"] } "k")
      "k").PublicKeys.count "k" = 1 :=
  ⟨by decide, addPublicKey_idempotent.2 _ "k" (by decide)⟩

/-- C5: after `AddPublicKey k` a key `x` is a member of the key list exactly
when `x = k` or `x` was a member before; and when `k` was already a member the
call is a no-op: the key list, and the whole record, are left as they were. -/
theorem addPublicKey_membership :
    (∀ (u : User) (k x : String),
      x ∈ (AddPublicKey u k).PublicKeys ↔ x = k ∨ x ∈ u.PublicKeys) ∧
    (∀ (u : User) (k : String), k ∈ u.PublicKeys →
      (AddPublicKey u k).PublicKeys = u.PublicKeys ∧ AddPublicKey u k = u) := by
  refine ⟨mem_addPublicKey, fun u k hk => ?_⟩
  rw [addPublicKey_present u k hk]
  exact ⟨rfl, rfl⟩

theorem addPublicKey_membership_witness :
    "b" ∈ ({ NewUser "alice" 0 with PublicKeys := ["a", "b", "c"] } : User).PublicKeys ∧
    (AddPublicKey { NewUser "alice" 0 with PublicKeys := ["a", "b", "c"] } "b").PublicKeys =
      ["a", "b", "c"] ∧
    AddPublicKey { NewUser "alice" 0 with PublicKeys := ["a", "b", "c"] } "b" =
      { NewUser "alice" 0 with PublicKeys := ["a", "b", "c"] } :=
  ⟨by decide, addPublicKey_membership.2 _ "b" (by decide)⟩

/-- C6: the scenario, for every username, every outcome `n` of the random draw
and every two distinct keys `k1` and `k2`. From `NewUser username`, after
`AddPublicKey k1`, `AddPublicKey k1`, `AddPublicKey k2` the key list is
`[k1, k2]`: two elements, and a key is a member exactly when it is `k1` or
`k2`. Then `RemovePublicKey k1` returns true and leaves `[k2]`, and a second
`RemovePublicKey k1` returns false. -/
theorem key_scenario (username : String) (n : Nat) (k1 k2 : String) (h : k1 ≠ k2) :
    (AddPublicKey (AddPublicKey (AddPublicKey (NewUser username n) k1) k1) k2).PublicKeys
      = [k1, k2] ∧
    (AddPublicKey (AddPublicKey (AddPublicKey (NewUser username n) k1) k1) k2).PublicKeys.length
      = 2 ∧
    (∀ x : String,
      x ∈ (AddPublicKey (AddPublicKey (AddPublicKey (NewUser username n) k1) k1) k2).PublicKeys
        ↔ x = k1 ∨ x = k2) ∧
    (RemovePublicKey
      (AddPublicKey (AddPublicKey (AddPublicKey (NewUser username n) k1) k1) k2) k1).2 = true ∧
    (RemovePublicKey
      (AddPublicKey (AddPublicKey (AddPublicKey (NewUser username n) k1) k1) k2)
      k1).1.PublicKeys = [k2] ∧
    (∀ x : String,
      x ∈ (RemovePublicKey
        (AddPublicKey (AddPublicKey (AddPublicKey (NewUser username n) k1) k1) k2)
        k1).1.PublicKeys ↔ x = k2) ∧
    (RemovePublicKey (RemovePublicKey
      (AddPublicKey (AddPublicKey (AddPublicKey (NewUser username n) k1) k1) k2) k1).1
      k1).2 = false := by
  have e : (AddPublicKey (AddPublicKey (AddPublicKey (NewUser username n) k1) k1) k2)
      = { NewUser username n with PublicKeys := [k1, k2] } := by
    simp [AddPublicKey, NewUser, keyExists, h]
  have r : RemovePublicKey { NewUser username n with PublicKeys := [k1, k2] } k1
      = ({ NewUser username n with PublicKeys := [k2] }, true) := by
    simp [RemovePublicKey, keyIndex, swapRemove]
  have r2 : RemovePublicKey { NewUser username n with PublicKeys := [k2] } k1
      = ({ NewUser username n with PublicKeys := [k2] }, false) := by
    simp [RemovePublicKey, keyIndex, Ne.symm h]
  rw [e, r, r2]
  simp

theorem key_scenario_witness :
    "k1" ≠ "k2" ∧
    (AddPublicKey (AddPublicKey (AddPublicKey (NewUser "alice" 0) "k1") "k1") "k2").PublicKeys
      = ["k1", "k2"] ∧
    (RemovePublicKey
      (AddPublicKey (AddPublicKey (AddPublicKey (NewUser "alice" 0) "k1") "k1") "k2")
      "k1").2 = true ∧
    (RemovePublicKey
      (AddPublicKey (AddPublicKey (AddPublicKey (NewUser "alice" 0) "k1") "k1") "k2")
      "k1").1.PublicKeys = ["k2"] ∧
    (RemovePublicKey (RemovePublicKey
      (AddPublicKey (AddPublicKey (AddPublicKey (NewUser "alice" 0) "k1") "k1") "k2") "k1").1
      "k1").2 = false :=
  have t := key_scenario "alice" 0 "k1" "k2" (by decide)
  ⟨by decide, t.1, t.2.2.2.1, t.2.2.2.2.1, t.2.2.2.2.2.2⟩

/-! ## The permission table -/

/-- C7: `SetPermission` replaces and does not merge. On a record with an
initialised permission table, `SetPermission p t` completes, the entry for `p`
is then exactly `t` whatever it was before, and every other path keeps its
entry or its absence of entry; so `SetPermission p a` followed by
`SetPermission p b` leaves exactly `b` at `p`. -/
theorem setPermission_replaces :
    (∀ (u : User) (p : String) (t : List String), u.Permissions.isSome = true →
      ∃ v : User, SetPermission u p t = some v ∧
        v.permission p = some t ∧
        ∀ q : String, q ≠ p → v.permission q = u.permission q) ∧
    (∀ (u : User) (p : String) (a b : List String), u.Permissions.isSome = true →
      ∃ v w : User, SetPermission u p a = some v ∧ SetPermission v p b = some w ∧
        w.permission p = some b ∧
        ∀ q : String, q ≠ p → w.permission q = u.permission q) := by
  constructor
  · intro u p t h
    cases hm : u.Permissions with
    | none => simp [hm] at h
    | some m =>
      refine ⟨{ u with Permissions := some (m.assign p t) }, by simp [SetPermission, hm], ?_, ?_⟩
      · simp [User.permission, PermTable.assign]
      · intro q hq
        simp [User.permission, PermTable.assign, hq, hm]
  · intro u p a b h
    cases hm : u.Permissions with
    | none => simp [hm] at h
    | some m =>
      refine ⟨{ u with Permissions := some (m.assign p a) },
        { u with Permissions := some ((m.assign p a).assign p b) },
        by simp [SetPermission, hm], by simp [SetPermission], ?_, ?_⟩
      · simp [User.permission, PermTable.assign]
      · intro q hq
        simp [User.permission, PermTable.assign, hq, hm]

theorem setPermission_replaces_witness :
    (NewUser "alice" 0).Permissions.isSome = true ∧
    ∃ v w : User, SetPermission (NewUser "alice" 0) "/data" ["read", "write"] = some v ∧
      SetPermission v "/data" ["list"] = some w ∧
      w.permission "/data" = some ["list"] ∧
      ∀ q : String, q ≠ "/data" → w.permission q = (NewUser "alice" 0).permission q :=
  ⟨by decide,
    setPermission_replaces.2 (NewUser "alice" 0) "/data" ["read", "write"] ["list"] (by decide)⟩

/-- C8: `RemovePermission p` returns true exactly when the permission table had
an entry for `p`; afterwards the table has no entry for `p` and every other
path keeps its entry or its absence of entry; and when it returns false the
record, its table included, is unchanged. -/
theorem removePermission_spec (u : User) (p : String) :
    ((RemovePermission u p).2 = true ↔ (u.permission p).isSome = true) ∧
    (RemovePermission u p).1.permission p = none ∧
    (∀ q : String, q ≠ p → (RemovePermission u p).1.permission q = u.permission q) ∧
    ((RemovePermission u p).2 = false → (RemovePermission u p).1 = u) := by
  cases hp : u.permission p with
  | none =>
    have e : RemovePermission u p = (u, false) := by simp [RemovePermission, hp]
    rw [e]
    simp [hp]
  | some t =>
    have e : RemovePermission u p
        = ({ u with Permissions := u.Permissions.map fun m => m.delete p }, true) := by
      simp [RemovePermission, hp]
    rw [e]
    cases hm : u.Permissions with
    | none => simp [User.permission, hm] at hp
    | some m =>
      refine ⟨by simp, by simp [User.permission, PermTable.delete], ?_, by simp⟩
      intro q hq
      simp [User.permission, PermTable.delete, hq, hm]

theorem removePermission_spec_witness :
    (RemovePermission (NewUser "alice" 0) "/data").2 = false ∧
    (RemovePermission (NewUser "alice" 0) "/data").1 = NewUser "alice" 0 :=
  ⟨by decide, (removePermission_spec (NewUser "alice" 0) "/data").2.2.2 (by decide)⟩

/-- C9: an explicitly empty grant is not an absent entry. On a record with an
initialised table, `SetPermission p []` completes and leaves an entry (the
empty list) at `p`, and `RemovePermission p` then returns true; on a record in
which `p` has no entry `RemovePermission p` returns false, and so it does on
every record built by `NewUser`. -/
theorem empty_grant_is_an_entry :
    (∀ (u : User) (p : String), u.Permissions.isSome = true →
      ∃ v : User, SetPermission u p [] = some v ∧ v.permission p = some [] ∧
        (RemovePermission v p).2 = true) ∧
    (∀ (u : User) (p : String), u.permission p = none → (RemovePermission u p).2 = false) ∧
    (∀ (username : String) (n : Nat) (p : String),
      (NewUser username n).permission p = none ∧
      (RemovePermission (NewUser username n) p).2 = false) := by
  refine ⟨fun u p h => ?_, fun u p h => by simp [RemovePermission, h], fun username n p => ?_⟩
  · cases hm : u.Permissions with
    | none => simp [hm] at h
    | some m =>
      have hv : ({ u with Permissions := some (m.assign p []) } : User).permission p
          = some [] := by
        simp [User.permission, PermTable.assign]
      exact ⟨{ u with Permissions := some (m.assign p []) }, by simp [SetPermission, hm], hv,
        by simp [RemovePermission, hv]⟩
  · exact ⟨rfl, rfl⟩

theorem empty_grant_is_an_entry_witness :
    (NewUser "alice" 0).Permissions.isSome = true ∧
    ∃ v : User, SetPermission (NewUser "alice" 0) "/data" [] = some v ∧
      v.permission "/data" = some [] ∧ (RemovePermission v "/data").2 = true :=
  ⟨by decide, empty_grant_is_an_entry.1 (NewUser "alice" 0) "/data" (by decide)⟩

/-! ## The numeric identity -/

/-- C10: for every username and every outcome `n < 59000` of the random draw,
the record built by `NewUser` has `Uid = Gid` and `1000 ≤ Uid < 60000`, and the
conversion to 32 bits does not wrap: `Uid` is `1000 + n` itself. -/
theorem newUser_id_range (username : String) (n : Nat) (h : n < 59000) :
    (NewUser username n).Uid = (NewUser username n).Gid ∧
    1000 ≤ (NewUser username n).Uid ∧
    (NewUser username n).Uid < 60000 ∧
    (NewUser username n).Uid = 1000 + n := by
  have e : (NewUser username n).Uid = 1000 + n := by
    show (1000 + n) % 2 ^ 32 = 1000 + n
    exact Nat.mod_eq_of_lt (by omega)
  refine ⟨rfl, ?_, ?_, e⟩ <;> omega

theorem newUser_id_range_witness :
    58999 < 59000 ∧
    (NewUser "alice" 58999).Uid = (NewUser "alice" 58999).Gid ∧
    1000 ≤ (NewUser "alice" 58999).Uid ∧
    (NewUser "alice" 58999).Uid < 60000 ∧
    (NewUser "alice" 58999).Uid = 1000 + 58999 :=
  ⟨by decide, newUser_id_range "alice" 58999 (by decide)⟩

/-! ## Lemmas on `filepath.Clean` -/

/-- With nothing left to read the loop returns the output, whatever the fuel. -/
theorem cleanLoop_nil (rooted : Bool) (fuel : Nat) (out : List Char) (dotdot : Nat) :
    cleanLoop rooted fuel [] out dotdot = out := by
  cases fuel <;> rfl

theorem element_eq_self (p : List Char) (h : '/' ∉ p) : element p = p := by
  unfold element
  rw [List.takeWhile_eq_self_iff]
  intro c hc
  simp [isPathSeparator]
  rintro rfl
  exact h hc

theorem afterElement_eq_nil (p : List Char) (h : '/' ∉ p) : afterElement p = [] := by
  unfold afterElement
  rw [List.dropWhile_eq_nil_iff]
  intro c hc
  simp [isPathSeparator]
  rintro rfl
  exact h hc

theorem afterElement_length_le (c : Char) (t : List Char) (h : isPathSeparator c = false) :
    (afterElement (c :: t)).length ≤ t.length := by
  unfold afterElement
  rw [List.dropWhile_cons]
  simp only [h, Bool.not_false, if_true]
  exact (List.dropWhile_sublist _).length_le

/-- The fuel of the loop is adequate: every iteration reads at least one byte,
so any two amounts of fuel that are at least the number of bytes left give the
same output, and the branch for exhausted fuel is taken only with nothing left
to read. -/
theorem cleanLoop_fuel (rooted : Bool) (f1 : Nat) :
    ∀ (f2 : Nat) (rest out : List Char) (dotdot : Nat),
      rest.length ≤ f1 → rest.length ≤ f2 →
      cleanLoop rooted f1 rest out dotdot = cleanLoop rooted f2 rest out dotdot := by
  induction f1 with
  | zero =>
    intro f2 rest out dotdot h1 _
    have : rest = [] := List.length_eq_zero.1 (Nat.le_zero.1 h1)
    subst this
    rw [cleanLoop_nil, cleanLoop_nil]
  | succ f1 ih =>
    intro f2 rest out dotdot h1 h2
    cases rest with
    | nil => rw [cleanLoop_nil, cleanLoop_nil]
    | cons c t =>
      cases f2 with
      | zero => simp at h2
      | succ f2 =>
        have g1 : t.length ≤ f1 := by simpa using h1
        have g2 : t.length ≤ f2 := by simpa using h2
        have gt : t.tail.length ≤ t.length := by simp
        simp only [cleanLoop]
        by_cases hsep : isPathSeparator c = true
        · simp only [hsep, if_true]
          exact ih _ _ _ _ g1 g2
        · have hs : isPathSeparator c = false := by simpa using hsep
          have ga := afterElement_length_le c t hs
          simp only [hs]
          split_ifs
          all_goals first
            | exact ih _ _ _ _ g1 g2
            | exact ih _ _ _ _ (by omega) (by omega)

/-- The first two iterations on `home/...` after the leading separator: the
element `home` is copied and the separator after it is skipped. -/
theorem cleanLoop_home_step (u : List Char) (fuel : Nat) :
    cleanLoop true (fuel + 3) (['h', 'o', 'm', 'e', '/'] ++ u) ['/'] 1
      = cleanLoop true (fuel + 1) u ['/', 'h', 'o', 'm', 'e'] 1 := by
  simp [cleanLoop, isPathSeparator, element, afterElement, List.takeWhile, List.dropWhile]

/-- One iteration on a last element that is neither `.` nor `..`: a separator
and the element are appended. -/
theorem cleanLoop_component (c : Char) (t : List Char) (hs : '/' ∉ c :: t)
    (h1 : c :: t ≠ ['.']) (h2 : c :: t ≠ ['.', '.']) (fuel : Nat) (out : List Char)
    (hout : out.length ≠ 1) (dotdot : Nat) :
    cleanLoop true (fuel + 1) (c :: t) out dotdot = out ++ '/' :: c :: t := by
  have hc : c ≠ '/' := fun h => hs (h ▸ List.mem_cons_self _ _)
  have ht : '/' ∉ t := fun h => hs (List.mem_cons_of_mem _ h)
  have hhead : ¬ (t.head?.map isPathSeparator = some true) := by
    cases t with
    | nil => simp
    | cons d t2 =>
      have : d ≠ '/' := fun h => ht (h ▸ List.mem_cons_self _ _)
      simp [isPathSeparator, this]
  have hhead2 : ¬ (t.tail.head?.map isPathSeparator = some true) := by
    cases t with
    | nil => simp
    | cons d t2 =>
      cases t2 with
      | nil => simp
      | cons e t3 =>
        have : e ≠ '/' := fun h => ht (h ▸ List.mem_cons_of_mem _ (List.mem_cons_self _ _))
        simp [isPathSeparator, this]
  have hdot : ¬ (c = '.' ∧ (t = [] ∨ t.head?.map isPathSeparator = some true)) := by
    rintro ⟨rfl, h | h⟩
    · exact h1 (by rw [h])
    · exact hhead h
  have hdotdot : ¬ (c = '.' ∧ t.head? = some '.' ∧
      (t.tail = [] ∨ t.tail.head?.map isPathSeparator = some true)) := by
    rintro ⟨rfl, hd, h | h⟩
    · cases t with
      | nil => simp at hd
      | cons d t2 =>
        simp at hd h
        exact h2 (by rw [hd, h])
    · exact hhead2 h
  rw [cleanLoop]
  have hsep : isPathSeparator c = false := by simp [isPathSeparator, hc]
  rw [if_neg (by simp [hsep]), if_neg hdot, if_neg hdotdot]
  simp only [element_eq_self _ hs, afterElement_eq_nil _ hs, cleanLoop_nil]
  simp [hout]

/-- The join of `/home` and a single plain path component. -/
theorem join_home_component (u : String) (hne : u ≠ "") (hs : '/' ∉ u.data)
    (h1 : u ≠ ".") (h2 : u ≠ "..") :
    Join "/home" u = "/home/" ++ u := by
  obtain ⟨l⟩ := u
  cases l with
  | nil => exact absurd rfl hne
  | cons c t =>
    have e : ("/home" ++ "/" ++ (⟨c :: t⟩ : String)).data
        = '/' :: (['h', 'o', 'm', 'e', '/'] ++ c :: t) := rfl
    have k1 : c :: t ≠ ['.'] := fun h => h1 (by rw [h])
    have k2 : c :: t ≠ ['.', '.'] := fun h => h2 (by rw [h])
    have hj : Join "/home" ⟨c :: t⟩ = Clean ("/home" ++ "/" ++ (⟨c :: t⟩ : String)) := by
      simp [Join]
    rw [hj]
    unfold Clean
    rw [e]
    simp only [isPathSeparator, beq_self_eq_true, if_true, List.length_cons, List.length_append]
    generalize hfuel :
      ([] : List Char).length + 1 + 1 + 1 + 1 + 1 + (t.length + 1) + 1 = fuel
    obtain ⟨f, rfl⟩ : ∃ f, fuel = f + 3 := ⟨t.length + 4, by simp at hfuel; omega⟩
    rw [cleanLoop_home_step, cleanLoop_component c t hs k1 k2 _ _ (by simp)]
    rfl

/-! ## The constructor -/

/-- C11: the default home directory is the fixed root `/home` joined with the
username. For every username that is a single plain path component (not
empty, without `/`, and neither `.` nor `..`) and every outcome `n` of the
random draw, `(NewUser username n).HomeDir` is `"/home/"` followed by the
username. -/
theorem newUser_homeDir (username : String) (n : Nat) (hne : username ≠ "")
    (hs : '/' ∉ username.data) (h1 : username ≠ ".") (h2 : username ≠ "..") :
    (NewUser username n).HomeDir = "/home/" ++ username :=
  join_home_component username hne hs h1 h2

theorem newUser_homeDir_witness :
    "alice" ≠ "" ∧ '/' ∉ "alice".data ∧ "alice" ≠ "." ∧ "alice" ≠ ".." ∧
    (NewUser "alice" 0).HomeDir = "/home/alice" :=
  ⟨by decide, by decide, by decide, by decide,
    newUser_homeDir "alice" 0 (by decide) (by decide) (by decide) (by decide)⟩

/-- C12: for every username (and outcome `n` of the random draw) the record
built by `NewUser` has `Username` equal to the argument, the empty password,
no public key, and an initialised permission table in which no path has an
entry. -/
theorem newUser_fields (username : String) (n : Nat) :
    (NewUser username n).Username = username ∧
    (NewUser username n).Password = "" ∧
    (NewUser username n).PublicKeys = [] ∧
    (∀ k : String, k ∉ (NewUser username n).PublicKeys) ∧
    (NewUser username n).Permissions.isSome = true ∧
    (∀ p : String, (NewUser username n).permission p = none) :=
  ⟨rfl, rfl, rfl, fun k => List.not_mem_nil k, rfl, fun _ => rfl⟩

/-- C13: for every record and every secret `s`, the empty string included,
after `SetPassword s` the stored `Password` is `s` whatever it was before, and
`Username`, `PublicKeys`, `HomeDir`, `Permissions`, `Uid` and `Gid` are
unchanged. -/
theorem setPassword_frame (u : User) (s : String) :
    (SetPassword u s).Password = s ∧
    (SetPassword u "").Password = "" ∧
    (SetPassword u s).Username = u.Username ∧
    (SetPassword u s).PublicKeys = u.PublicKeys ∧
    (SetPassword u s).HomeDir = u.HomeDir ∧
    (SetPassword u s).Permissions = u.Permissions ∧
    (SetPassword u s).Uid = u.Uid ∧
    (SetPassword u s).Gid = u.Gid :=
  ⟨rfl, rfl, rfl, rfl, rfl, rfl, rfl, rfl⟩

/-! ## Frame lemmas for the mutators -/

theorem addPublicKey_frame (u : User) (k : String) :
    AddPublicKey u k = { u with PublicKeys := (AddPublicKey u k).PublicKeys } := by
  unfold AddPublicKey
  split <;> rfl

theorem removePublicKey_frame (u : User) (k : String) :
    (RemovePublicKey u k).1 = { u with PublicKeys := (RemovePublicKey u k).1.PublicKeys } := by
  unfold RemovePublicKey
  split <;> rfl

theorem setPermission_frame (u v : User) (p : String) (t : List String)
    (h : SetPermission u p t = some v) :
    v = { u with Permissions := v.Permissions } ∧ v.Permissions.isSome = true := by
  unfold SetPermission at h
  split at h
  · exact absurd h (by simp)
  · cases h
    exact ⟨rfl, rfl⟩

theorem setPermission_isSome (u : User) (p : String) (t : List String)
    (h : u.Permissions.isSome = true) : (SetPermission u p t).isSome = true := by
  unfold SetPermission
  split
  · rename_i hm
    simp [hm] at h
  · rfl

theorem removePermission_frame (u : User) (p : String) :
    (RemovePermission u p).1 = { u with Permissions := (RemovePermission u p).1.Permissions } ∧
    (RemovePermission u p).1.Permissions.isSome = u.Permissions.isSome := by
  unfold RemovePermission
  split
  · exact ⟨rfl, by simp⟩
  · exact ⟨rfl, rfl⟩

/-- One mutator call that completes keeps `Username`, `HomeDir`, `Uid` and
`Gid`, and keeps an initialised permission table initialised. -/
theorem mutation_apply_frame (u v : User) (m : Mutation) (h : m.apply u = some v) :
    v.Username = u.Username ∧ v.HomeDir = u.HomeDir ∧ v.Uid = u.Uid ∧ v.Gid = u.Gid ∧
    (u.Permissions.isSome = true → v.Permissions.isSome = true) := by
  cases m with
  | setPassword s =>
    cases h
    exact ⟨rfl, rfl, rfl, rfl, fun hp => hp⟩
  | addPublicKey k =>
    cases h
    rw [addPublicKey_frame u k]
    exact ⟨rfl, rfl, rfl, rfl, fun hp => hp⟩
  | removePublicKey k =>
    cases h
    rw [removePublicKey_frame u k]
    exact ⟨rfl, rfl, rfl, rfl, fun hp => hp⟩
  | setPermission p t =>
    have hf := setPermission_frame u v p t h
    rw [hf.1]
    exact ⟨rfl, rfl, rfl, rfl, fun _ => hf.2⟩
  | removePermission p =>
    cases h
    have hf := removePermission_frame u p
    refine ⟨?_, ?_, ?_, ?_, fun hp => hf.2.trans hp⟩ <;> rw [hf.1]

/-- One mutator call on a record with an initialised table completes. -/
theorem mutation_apply_isSome (u : User) (m : Mutation) (h : u.Permissions.isSome = true) :
    (m.apply u).isSome = true := by
  cases m with
  | setPermission p t => exact setPermission_isSome u p t h
  | _ => rfl

/-- A sequence of mutator calls on a record with an initialised table
completes, keeps the table initialised and keeps `Username`, `HomeDir`, `Uid`
and `Gid`. -/
theorem runMutations_frame (ms : List Mutation) :
    ∀ u : User, u.Permissions.isSome = true →
      ∃ v : User, runMutations u ms = some v ∧ v.Permissions.isSome = true ∧
        v.Username = u.Username ∧ v.HomeDir = u.HomeDir ∧ v.Uid = u.Uid ∧ v.Gid = u.Gid := by
  induction ms with
  | nil => exact fun u h => ⟨u, rfl, h, rfl, rfl, rfl, rfl⟩
  | cons m rest ih =>
    intro u h
    obtain ⟨w, hw⟩ := Option.isSome_iff_exists.1 (mutation_apply_isSome u m h)
    have hf := mutation_apply_frame u w m hw
    obtain ⟨v, hv, hp, h1, h2, h3, h4⟩ := ih w (hf.2.2.2.2 h)
    refine ⟨v, ?_, hp, h1.trans hf.1, h2.trans hf.2.1, h3.trans hf.2.2.1, h4.trans hf.2.2.2.1⟩
    simp [runMutations, hw, hv]

/-! ## The not-found error -/

/-- C15: for every username, the message of the not-found error that carries it
is the string `"user not found: "` followed by the username. -/
theorem userNotFoundError_message (username : String) :
    UserNotFoundError.Error { Username := username } = "user not found: " ++ username := by
  simp [UserNotFoundError.Error, Sprintf, sprintfLoop]
  rfl

/-! ## The storage contract -/

/-- C16: storage round trip, on the directory modelled from the spec. For every
stored state and every record, `SaveUser record` followed by
`GetUser record.Username` returns, without error, the record that was saved,
equal to it in all fields. -/
theorem directory_round_trip (d : Directory) (user : User) :
    (d.SaveUser user).GetUser user.Username = Except.ok user := by
  simp [Directory.SaveUser, Directory.GetUser]

/-! ## Removal in detail -/

/-- Overwrite-and-truncate written with the last element of the list. -/
theorem swapRemove_eq (keys : List String) (i : Nat) (last : String)
    (h : keys.getLast? = some last) :
    swapRemove keys i = (keys.set i last).dropLast := by
  unfold swapRemove
  rw [← List.getLast?_eq_getElem?, h, List.dropLast_eq_take, List.length_set]

/-- C17: on every record, with or without duplicate keys, `RemovePublicKey k`
with `k` a member removes exactly one occurrence. It returns true, the new
list is one element shorter and is a permutation of the old list with its
first occurrence of `k` erased; it is the old list with the element at the
index of the first occurrence of `k` overwritten by the old last element, and
the last position dropped. -/
theorem removePublicKey_one_occurrence (u : User) (k : String) (hk : k ∈ u.PublicKeys) :
    (RemovePublicKey u k).2 = true ∧
    (RemovePublicKey u k).1.PublicKeys.length + 1 = u.PublicKeys.length ∧
    (RemovePublicKey u k).1.PublicKeys.Perm (u.PublicKeys.erase k) ∧
    ∃ last : String, u.PublicKeys.getLast? = some last ∧
      (RemovePublicKey u k).1.PublicKeys
        = (u.PublicKeys.set (u.PublicKeys.indexOf k) last).dropLast := by
  have hp := removePublicKey_perm_erase u k hk
  have hpos : 0 < u.PublicKeys.length := List.length_pos_of_mem hk
  refine ⟨by rw [removePublicKey_present u k hk], ?_, hp, ?_⟩
  · rw [hp.length_eq, List.length_erase_of_mem hk]
    omega
  · cases hl : u.PublicKeys.getLast? with
    | none =>
      rw [List.getLast?_eq_none_iff] at hl
      rw [hl] at hpos
      exact absurd hpos (by simp)
    | some last =>
      refine ⟨last, rfl, ?_⟩
      rw [removePublicKey_present u k hk]
      exact swapRemove_eq _ _ _ hl

theorem removePublicKey_one_occurrence_witness :
    "k" ∈ ({ NewUser "alice" 0 with PublicKeys := ["x", "k", "y", "k", "z"] } : User).PublicKeys ∧
    (RemovePublicKey { NewUser "alice" 0 with PublicKeys := ["x", "k", "y", "k", "z"] }
      "k").1.PublicKeys = ["x", "z", "y", "k"] ∧
    (RemovePublicKey { NewUser "alice" 0 with PublicKeys := ["x", "k", "y", "k", "z"] }
      "k").1.PublicKeys.Perm
      (({ NewUser "alice" 0 with PublicKeys := ["x", "k", "y", "k", "z"] } :
        User).PublicKeys.erase "k") :=
  ⟨by decide, by decide,
    (removePublicKey_one_occurrence
      { NewUser "alice" 0 with PublicKeys := ["x", "k", "y", "k", "z"] } "k"
      (by decide)).2.2.1⟩

/-! ## Safety of `SetPermission` -/

/-- C19: initialisation of the permission table is an invariant that makes
`SetPermission` safe. `NewUser` returns a record whose table is initialised;
on a record with an initialised table each of the five mutators completes and
leaves the table initialised; `SetPermission` fails exactly on a record whose
table is not initialised; so after any sequence of mutator calls from a
`NewUser` record every call has completed, the table is initialised and a
further `SetPermission` completes. The failure is met on a record that
`NewUser` did not build, such as the zero value of the struct. -/
theorem permissions_initialised_invariant :
    (∀ (username : String) (n : Nat), (NewUser username n).Permissions.isSome = true) ∧
    (∀ u : User, u.Permissions.isSome = true →
      (∀ s : String, (SetPassword u s).Permissions.isSome = true) ∧
      (∀ k : String, (AddPublicKey u k).Permissions.isSome = true) ∧
      (∀ k : String, (RemovePublicKey u k).1.Permissions.isSome = true) ∧
      (∀ (p : String) (t : List String),
        ∃ v : User, SetPermission u p t = some v ∧ v.Permissions.isSome = true) ∧
      (∀ p : String, (RemovePermission u p).1.Permissions.isSome = true)) ∧
    (∀ (u : User) (p : String) (t : List String),
      SetPermission u p t = none ↔ u.Permissions.isSome = false) ∧
    (∀ (username : String) (n : Nat) (ms : List Mutation) (p : String) (t : List String),
      ∃ v w : User, runMutations (NewUser username n) ms = some v ∧
        v.Permissions.isSome = true ∧ SetPermission v p t = some w) ∧
    (∀ (p : String) (t : List String),
      SetPermission zeroUser p t = none) := by
  refine ⟨fun _ _ => rfl, fun u h => ⟨fun _ => h, fun k => ?_, fun k => ?_, fun p t => ?_,
    fun p => ?_⟩, fun u p t => ?_, fun username n ms p t => ?_, fun _ _ => rfl⟩
  · rw [addPublicKey_frame u k]; exact h
  · rw [removePublicKey_frame u k]; exact h
  · obtain ⟨v, hv⟩ := Option.isSome_iff_exists.1 (setPermission_isSome u p t h)
    exact ⟨v, hv, (setPermission_frame u v p t hv).2⟩
  · rw [(removePermission_frame u p).2]; exact h
  · unfold SetPermission
    cases u.Permissions <;> simp
  · obtain ⟨v, hv, hp, _⟩ := runMutations_frame ms (NewUser username n) rfl
    obtain ⟨w, hw⟩ := Option.isSome_iff_exists.1 (setPermission_isSome v p t hp)
    exact ⟨v, w, hv, hp, hw⟩

theorem permissions_initialised_invariant_witness :
    (NewUser "alice" 0).Permissions.isSome = true ∧
    (∃ v : User, SetPermission (NewUser "alice" 0) "/data" ["read"] = some v ∧
      v.Permissions.isSome = true) ∧
    (RemovePermission (NewUser "alice" 0) "/data").1.Permissions.isSome = true :=
  have t := permissions_initialised_invariant.2.1 (NewUser "alice" 0) (by decide)
  ⟨by decide, t.2.2.2.1 "/data" ["read"], t.2.2.2.2 "/data"⟩

/-! ## Home directories outside `/home` -/

/-- C20: the default home directory is not confined to `/home`. For the
non-empty usernames `..` and `../etc` the home directory, the cleaned join of
`/home` and the username, is `/` and `/etc`, neither of which starts with
`/home/`; and for the empty username it is `/home` itself. -/
theorem homeDir_not_confined (n : Nat) :
    ".." ≠ "" ∧ (NewUser ".." n).HomeDir = "/" ∧
    ¬ ("/home/".data <+: (NewUser ".." n).HomeDir.data) ∧
    "../etc" ≠ "" ∧ (NewUser "../etc" n).HomeDir = "/etc" ∧
    ¬ ("/home/".data <+: (NewUser "../etc" n).HomeDir.data) ∧
    (NewUser "" n).HomeDir = "/home" := by
  have a : (NewUser ".." n).HomeDir = "/" := by
    show Join "/home" ".." = "/"
    decide
  have b : (NewUser "../etc" n).HomeDir = "/etc" := by
    show Join "/home" "../etc" = "/etc"
    decide
  have c : (NewUser "" n).HomeDir = "/home" := by
    show Join "/home" "" = "/home"
    decide
  rw [a, b, c]
  exact ⟨by decide, rfl, by decide, by decide, rfl, by decide, rfl⟩

/-! ## Lemmas on slices in memory -/

theorem take_succ_set (l : List String) (n : Nat) (a : String) (h : n < l.length) :
    (l.set n a).take (n + 1) = l.take n ++ [a] := by
  induction l generalizing n with
  | nil => simp at h
  | cons x t ih =>
    cases n with
    | zero => simp
    | succ m =>
      have hm : m < t.length := by simpa using h
      simp [ih m hm]

theorem arrayAt_writeCell_same (h : Mem.Heap) (p i : Nat) (v : String) :
    Mem.arrayAt (Mem.writeCell h p i v) p = (Mem.arrayAt h p).set i v := by
  unfold Mem.writeCell Mem.arrayAt
  by_cases hp : p < h.length
  · simp [List.getD_eq_getElem?_getD, List.getElem?_set, hp]
  · have hle : h.length ≤ p := by omega
    rw [List.set_eq_of_length_le hle]
    simp [List.getD_eq_getElem?_getD, List.getElem?_eq_none hle]

theorem arrayAt_writeCell_other (h : Mem.Heap) (p q i : Nat) (v : String) (hq : q ≠ p) :
    Mem.arrayAt (Mem.writeCell h p i v) q = Mem.arrayAt h q := by
  unfold Mem.writeCell Mem.arrayAt
  simp [List.getD_eq_getElem?_getD, List.getElem?_set, Ne.symm hq]

theorem arrayAt_alloc_old (h : Mem.Heap) (a : List String) (q : Nat) (hq : q < h.length) :
    Mem.arrayAt (h ++ [a]) q = Mem.arrayAt h q := by
  unfold Mem.arrayAt
  simp [List.getD_eq_getElem?_getD, List.getElem?_append_left hq]

theorem arrayAt_alloc_new (h : Mem.Heap) (a : List String) :
    Mem.arrayAt (h ++ [a]) h.length = a := by
  unfold Mem.arrayAt
  simp [List.getD_eq_getElem?_getD]

theorem length_readSlice (h : Mem.Heap) (s : Mem.Slice) (hwf : s.WF h) :
    (Mem.readSlice h s).length = s.len := by
  unfold Mem.readSlice
  have := hwf.1
  have := hwf.2
  simp
  omega

theorem readSlice_writeCell_other (h : Mem.Heap) (p i : Nat) (v : String) (t : Mem.Slice)
    (ht : t.ptr ≠ p) : Mem.readSlice (Mem.writeCell h p i v) t = Mem.readSlice h t := by
  unfold Mem.readSlice
  rw [arrayAt_writeCell_other h p t.ptr i v ht]

theorem readSlice_alloc_old (h : Mem.Heap) (a : List String) (t : Mem.Slice)
    (ht : t.ptr < h.length) : Mem.readSlice (h ++ [a]) t = Mem.readSlice h t := by
  unfold Mem.readSlice
  rw [arrayAt_alloc_old h a t.ptr ht]


theorem wf_drop_length (h : Mem.Heap) (s : Mem.Slice) (hwf : s.WF h) :
    s.len ≤ ((Mem.arrayAt h s.ptr).drop s.off).length := by
  have := hwf.1
  have := hwf.2
  simp
  omega

/-- In-place append. -/
theorem readSlice_append_inplace (h : Mem.Heap) (s : Mem.Slice) (k : String)
    (hwf : s.WF h) (hc : s.len < s.cap) :
    Mem.readSlice (Mem.writeCell h s.ptr (s.off + s.len) k) { s with len := s.len + 1 }
      = Mem.readSlice h s ++ [k] := by
  unfold Mem.readSlice
  rw [arrayAt_writeCell_same]
  simp only
  have h2 := hwf.2
  rw [List.drop_set, if_neg (by omega), Nat.add_sub_cancel_left]
  exact take_succ_set _ _ _ (by simp; omega)

theorem readSlice_append (grow : Nat → Nat → Nat) (h : Mem.Heap) (s : Mem.Slice) (k : String)
    (hwf : s.WF h) :
    Mem.readSlice (Mem.append grow h s k).1 (Mem.append grow h s k).2 = Mem.readSlice h s ++ [k] ∧
    (Mem.append grow h s k).2.WF (Mem.append grow h s k).1 ∧
    (Mem.append grow h s k).2.len = s.len + 1 := by
  unfold Mem.append
  split
  · rename_i hc
    refine ⟨readSlice_append_inplace h s k hwf hc, ⟨?_, ?_⟩, rfl⟩
    · show s.len + 1 ≤ s.cap
      omega
    · show s.off + s.cap ≤ (Mem.arrayAt (Mem.writeCell h s.ptr (s.off + s.len) k) s.ptr).length
      rw [arrayAt_writeCell_same, List.length_set]
      exact hwf.2
  · have hl := length_readSlice h s hwf
    refine ⟨?_, ⟨?_, ?_⟩, rfl⟩
    · show ((Mem.arrayAt (h ++ [_]) h.length).drop 0).take (s.len + 1) = _
      rw [arrayAt_alloc_new, List.drop_zero]
      generalize Mem.readSlice h s = L at hl
      rw [List.take_append_of_le_length (by simp [hl]), List.take_of_length_le (by simp [hl])]
    · show s.len + 1 ≤ max (s.len + 1) (grow s.cap (s.len + 1))
      exact Nat.le_max_left _ _
    · show 0 + max (s.len + 1) (grow s.cap (s.len + 1)) ≤ (Mem.arrayAt _ h.length).length
      rw [arrayAt_alloc_new]
      simp only [List.length_append, List.length_replicate, List.length_singleton, hl]
      have := Nat.le_max_left (s.len + 1) (grow s.cap (s.len + 1))
      omega


/-- The in-place removal reads as overwrite-and-truncate on the elements. -/
theorem readSlice_swapRemove (h : Mem.Heap) (s : Mem.Slice) (i : Nat)
    (hwf : s.WF h) (hi : i < s.len) :
    Mem.readSlice
      (Mem.writeCell h s.ptr (s.off + i)
        ((Mem.arrayAt h s.ptr).getD (s.off + (s.len - 1)) ""))
      { s with len := s.len - 1 }
      = swapRemove (Mem.readSlice h s) i := by
  have hl := length_readSlice h s hwf
  have h1 := hwf.1
  have h2 := hwf.2
  have hlast : (Mem.readSlice h s)[(Mem.readSlice h s).length - 1]?
      = some ((Mem.arrayAt h s.ptr).getD (s.off + (s.len - 1)) "") := by
    rw [hl]
    unfold Mem.readSlice
    rw [List.getElem?_take, if_pos (by omega), List.getElem?_drop, List.getD_eq_getElem?_getD,
      List.getElem?_eq_getElem (by omega)]
    rfl
  unfold swapRemove
  rw [hlast]
  simp only [hl]
  unfold Mem.readSlice
  rw [arrayAt_writeCell_same]
  simp only
  rw [List.drop_set, if_neg (by omega), Nat.add_sub_cancel_left, ← List.set_take,
    List.take_take, Nat.min_eq_left (by omega)]


theorem mem_addPublicKey_user (grow : Nat → Nat → Nat) (st : Mem.State) (k : String) :
    (Mem.AddPublicKey grow st k).user
      = { st.user with PublicKeys := (Mem.AddPublicKey grow st k).user.PublicKeys } := by
  unfold Mem.AddPublicKey
  split <;> rfl

theorem mem_addPublicKey_other (grow : Nat → Nat → Nat) (st : Mem.State) (k : String)
    (t : Mem.Slice) (ht : t.ptr ≠ st.user.PublicKeys.ptr) (hlt : t.ptr < st.heap.length) :
    Mem.readSlice (Mem.AddPublicKey grow st k).heap t = Mem.readSlice st.heap t := by
  unfold Mem.AddPublicKey
  split
  · rfl
  · show Mem.readSlice (Mem.append grow st.heap st.user.PublicKeys k).1 t = _
    unfold Mem.append
    split
    · exact readSlice_writeCell_other _ _ _ _ t ht
    · exact readSlice_alloc_old _ _ t hlt

theorem mem_removePublicKey_user (st : Mem.State) (k : String) :
    (Mem.RemovePublicKey st k).1.user
      = { st.user with PublicKeys := (Mem.RemovePublicKey st k).1.user.PublicKeys } := by
  unfold Mem.RemovePublicKey
  split <;> rfl

theorem mem_removePublicKey_other (st : Mem.State) (k : String)
    (t : Mem.Slice) (ht : t.ptr ≠ st.user.PublicKeys.ptr) :
    Mem.readSlice (Mem.RemovePublicKey st k).1.heap t = Mem.readSlice st.heap t := by
  unfold Mem.RemovePublicKey
  split
  · exact readSlice_writeCell_other _ _ _ _ t ht
  · rfl

/-- The key list after `AddPublicKey` in memory has the elements that
`AddPublicKey` on lists gives. -/
theorem mem_addPublicKey_keys (grow : Nat → Nat → Nat) (st : Mem.State) (k : String)
    (u : User) (hu : u.PublicKeys = Mem.readSlice st.heap st.user.PublicKeys)
    (hwf : st.user.PublicKeys.WF st.heap) :
    Mem.readSlice (Mem.AddPublicKey grow st k).heap (Mem.AddPublicKey grow st k).user.PublicKeys
      = (AddPublicKey u k).PublicKeys ∧
    (Mem.AddPublicKey grow st k).user.PublicKeys.WF (Mem.AddPublicKey grow st k).heap := by
  unfold Mem.AddPublicKey AddPublicKey
  rw [hu]
  split
  · exact ⟨hu.symm, hwf⟩
  · have ha := readSlice_append grow st.heap st.user.PublicKeys k hwf
    exact ⟨ha.1, ha.2.1⟩

theorem keyIndex_lt (key : String) (keys : List String) (j i : Nat)
    (h : keyIndex key keys j = some i) : i < j + keys.length := by
  induction keys generalizing j with
  | nil => simp [keyIndex] at h
  | cons a rest ih =>
    unfold keyIndex at h
    split at h
    · cases h
      simp
    · have := ih (j + 1) h
      simp
      omega

/-- The key list after `RemovePublicKey` in memory has the elements that
`RemovePublicKey` on lists gives, and the same result is returned. -/
theorem mem_removePublicKey_keys (st : Mem.State) (k : String)
    (u : User) (hu : u.PublicKeys = Mem.readSlice st.heap st.user.PublicKeys)
    (hwf : st.user.PublicKeys.WF st.heap) :
    Mem.readSlice (Mem.RemovePublicKey st k).1.heap (Mem.RemovePublicKey st k).1.user.PublicKeys
      = (RemovePublicKey u k).1.PublicKeys ∧
    (Mem.RemovePublicKey st k).2 = (RemovePublicKey u k).2 ∧
    (Mem.RemovePublicKey st k).1.user.PublicKeys.WF (Mem.RemovePublicKey st k).1.heap := by
  unfold Mem.RemovePublicKey RemovePublicKey
  rw [hu]
  cases hi : keyIndex k (Mem.readSlice st.heap st.user.PublicKeys) 0 with
  | none => exact ⟨hu.symm, rfl, hwf⟩
  | some i =>
    have hlt : i < st.user.PublicKeys.len := by
      have := keyIndex_lt _ _ _ _ hi
      rw [length_readSlice _ _ hwf] at this
      omega
    refine ⟨readSlice_swapRemove st.heap st.user.PublicKeys i hwf hlt, rfl, ⟨?_, ?_⟩⟩
    · show st.user.PublicKeys.len - 1 ≤ st.user.PublicKeys.cap
      have := hwf.1
      omega
    · show st.user.PublicKeys.off + st.user.PublicKeys.cap
        ≤ (Mem.arrayAt (Mem.writeCell _ _ _ _) st.user.PublicKeys.ptr).length
      rw [arrayAt_writeCell_same, List.length_set]
      exact hwf.2


theorem mem_addPublicKey_ptr (grow : Nat → Nat → Nat) (st : Mem.State) (k : String) :
    (Mem.AddPublicKey grow st k).user.PublicKeys.ptr = st.user.PublicKeys.ptr ∨
    (Mem.AddPublicKey grow st k).user.PublicKeys.ptr = st.heap.length := by
  unfold Mem.AddPublicKey
  split
  · exact Or.inl rfl
  · show (Mem.append grow st.heap st.user.PublicKeys k).2.ptr = _ ∨ _
    unfold Mem.append
    split
    · exact Or.inl rfl
    · exact Or.inr rfl

/-- The tokens of an entry are the same in two states with the same table when
the elements of the entry's slice are the same. -/
theorem tokens_eq (st st2 : Mem.State) (q : String) (t : Mem.Slice)
    (hp : st2.user.Permissions = st.user.Permissions)
    (hq : st.user.permission q = some t)
    (hr : Mem.readSlice st2.heap t = Mem.readSlice st.heap t) :
    st2.tokens q = st.tokens q := by
  have e : st2.user.permission q = st.user.permission q := by
    unfold Mem.User.permission
    rw [hp]
  unfold Mem.State.tokens
  rw [e, hq]
  simp [hr]

theorem mem_addPublicKey_tokens (grow : Nat → Nat → Nat) (st : Mem.State) (k q : String)
    (t : Mem.Slice) (hq : st.user.permission q = some t)
    (ht : t.ptr ≠ st.user.PublicKeys.ptr) (hlt : t.ptr < st.heap.length) :
    (Mem.AddPublicKey grow st k).tokens q = st.tokens q :=
  tokens_eq st _ q t (by rw [mem_addPublicKey_user]) hq (mem_addPublicKey_other grow st k t ht hlt)

theorem mem_removePublicKey_tokens (st : Mem.State) (k q : String)
    (t : Mem.Slice) (hq : st.user.permission q = some t)
    (ht : t.ptr ≠ st.user.PublicKeys.ptr) :
    (Mem.RemovePublicKey st k).1.tokens q = st.tokens q :=
  tokens_eq st _ q t (by rw [mem_removePublicKey_user]) hq (mem_removePublicKey_other st k t ht)

/-- On lists, with `k` absent, `AddPublicKey k` then `RemovePublicKey k` gives
back the list. -/
theorem removePublicKey_addPublicKey_absent (u : User) (k : String) (hk : k ∉ u.PublicKeys) :
    RemovePublicKey (AddPublicKey u k) k = (u, true) := by
  rw [addPublicKey_absent u k hk, removePublicKey_present _ k (by simp)]
  simp only [List.indexOf_append_of_not_mem hk, List.indexOf_cons_self, swapRemove_concat]
  simp


theorem mem_setPermission_frame (st v : Mem.State) (p : String) (t : Mem.Slice)
    (h : Mem.SetPermission st p t = some v) :
    v.heap = st.heap ∧ v.user = { st.user with Permissions := v.user.Permissions } := by
  unfold Mem.SetPermission at h
  split at h
  · exact absurd h (by simp)
  · cases h
    exact ⟨rfl, rfl⟩

theorem mem_removePermission_frame (st : Mem.State) (p : String) :
    (Mem.RemovePermission st p).1.heap = st.heap ∧
    (Mem.RemovePermission st p).1.user
      = { st.user with Permissions := (Mem.RemovePermission st p).1.user.Permissions } := by
  unfold Mem.RemovePermission
  split <;> exact ⟨rfl, rfl⟩

/-- One mutator call that completes keeps `Username`, `HomeDir`, `Uid` and
`Gid`. -/
theorem mem_mutation_apply_frame (grow : Nat → Nat → Nat) (st v : Mem.State) (m : Mem.Mutation)
    (h : m.apply grow st = some v) :
    v.user.Username = st.user.Username ∧ v.user.HomeDir = st.user.HomeDir ∧
    v.user.Uid = st.user.Uid ∧ v.user.Gid = st.user.Gid := by
  cases m with
  | setPassword s =>
    cases h
    exact ⟨rfl, rfl, rfl, rfl⟩
  | addPublicKey k =>
    cases h
    rw [mem_addPublicKey_user grow st k]
    exact ⟨rfl, rfl, rfl, rfl⟩
  | removePublicKey k =>
    cases h
    rw [mem_removePublicKey_user st k]
    exact ⟨rfl, rfl, rfl, rfl⟩
  | setPermission p t =>
    rw [(mem_setPermission_frame st v p t h).2]
    exact ⟨rfl, rfl, rfl, rfl⟩
  | removePermission p =>
    cases h
    rw [(mem_removePermission_frame st p).2]
    exact ⟨rfl, rfl, rfl, rfl⟩

theorem mem_runMutations_frame (grow : Nat → Nat → Nat) (ms : List Mem.Mutation) :
    ∀ st v : Mem.State, Mem.runMutations grow st ms = some v →
      v.user.Username = st.user.Username ∧ v.user.HomeDir = st.user.HomeDir ∧
      v.user.Uid = st.user.Uid ∧ v.user.Gid = st.user.Gid := by
  induction ms with
  | nil =>
    intro st v h
    cases h
    exact ⟨rfl, rfl, rfl, rfl⟩
  | cons m rest ih =>
    intro st v h
    unfold Mem.runMutations at h
    cases hm : m.apply grow st with
    | none => rw [hm] at h; exact absurd h (by simp)
    | some w =>
      rw [hm] at h
      have hf := mem_mutation_apply_frame grow st w m hm
      have hr := ih w v h
      exact ⟨hr.1.trans hf.1, hr.2.1.trans hf.2.1, hr.2.2.1.trans hf.2.2.1,
        hr.2.2.2.trans hf.2.2.2⟩

/-! ## Immutable fields -/

/-- C14, as stated, fails: a mutator can change more than the field it
manages. After `NewUser`, `AddPublicKey` of `a`, `b`, `c` and
`SetPermission("/p", u.PublicKeys)`, the entry for `/p` reads `a b c`; the
call `RemovePublicKey("a")` writes into the array that entry shares, and the
entry then reads `c b c`. -/
theorem removePublicKey_changes_shared_entry :
    Mem.sharedKeys.map (fun st => st.tokens "/p") = some (some ["a", "b", "c"]) ∧
    Mem.sharedKeys.map (fun st => (Mem.RemovePublicKey st "a").1.tokens "/p")
      = some (some ["c", "b", "c"]) ∧
    ¬ ∀ (st : Mem.State) (k p : String), (Mem.RemovePublicKey st k).1.tokens p = st.tokens p := by
  refine ⟨by decide, by decide, fun h => ?_⟩
  have e : Mem.sharedKeys.map (fun st => (Mem.RemovePublicKey st "a").1.tokens "/p")
      = Mem.sharedKeys.map (fun st => st.tokens "/p") := by
    congr 1
    funext st
    exact h st "a" "/p"
  revert e
  decide

/-- C14, amended: `Username` is immutable after construction. Each mutator
leaves `Username`, `HomeDir`, `Uid` and `Gid` unchanged, so every record
reached from `NewUser username` by mutator calls has that `Username`, the
`HomeDir`, `Uid` and `Gid` it was built with, and `Uid = Gid`. `SetPassword`
changes only `Password`, and `SetPermission` and `RemovePermission` only the
permission table, none of them writing to memory. `AddPublicKey` and
`RemovePublicKey` change, of the record, only the header of the key list; they
write into the backing array of the key list, and the tokens read from an
entry of the table are unchanged when its slice is in another array. -/
theorem mutators_frame :
    (∀ (st : Mem.State) (s : String),
      (Mem.SetPassword st s).heap = st.heap ∧
      (Mem.SetPassword st s).user = { st.user with Password := s }) ∧
    (∀ (grow : Nat → Nat → Nat) (st : Mem.State) (k : String),
      (Mem.AddPublicKey grow st k).user
        = { st.user with PublicKeys := (Mem.AddPublicKey grow st k).user.PublicKeys } ∧
      ∀ (q : String) (t : Mem.Slice), st.user.permission q = some t →
        t.ptr ≠ st.user.PublicKeys.ptr → t.ptr < st.heap.length →
        (Mem.AddPublicKey grow st k).tokens q = st.tokens q) ∧
    (∀ (st : Mem.State) (k : String),
      (Mem.RemovePublicKey st k).1.user
        = { st.user with PublicKeys := (Mem.RemovePublicKey st k).1.user.PublicKeys } ∧
      ∀ (q : String) (t : Mem.Slice), st.user.permission q = some t →
        t.ptr ≠ st.user.PublicKeys.ptr →
        (Mem.RemovePublicKey st k).1.tokens q = st.tokens q) ∧
    (∀ (st : Mem.State) (p : String) (t : Mem.Slice) (v : Mem.State),
      Mem.SetPermission st p t = some v →
      v.heap = st.heap ∧ v.user = { st.user with Permissions := v.user.Permissions }) ∧
    (∀ (st : Mem.State) (p : String),
      (Mem.RemovePermission st p).1.heap = st.heap ∧
      (Mem.RemovePermission st p).1.user
        = { st.user with Permissions := (Mem.RemovePermission st p).1.user.Permissions }) ∧
    (∀ (grow : Nat → Nat → Nat) (st : Mem.State) (m : Mem.Mutation) (v : Mem.State),
      m.apply grow st = some v →
      v.user.Username = st.user.Username ∧ v.user.HomeDir = st.user.HomeDir ∧
      v.user.Uid = st.user.Uid ∧ v.user.Gid = st.user.Gid) ∧
    (∀ (grow : Nat → Nat → Nat) (heap : Mem.Heap) (username : String) (n : Nat)
      (ms : List Mem.Mutation) (v : Mem.State),
      Mem.runMutations grow { heap := heap, user := Mem.NewUser username n } ms = some v →
      v.user.Username = username ∧ v.user.HomeDir = Join "/home" username ∧
      v.user.Uid = (1000 + n) % 2 ^ 32 ∧ v.user.Gid = (1000 + n) % 2 ^ 32 ∧
      v.user.Uid = v.user.Gid) := by
  refine ⟨fun st s => ⟨rfl, rfl⟩,
    fun grow st k => ⟨mem_addPublicKey_user grow st k, fun q t hq ht hlt =>
      mem_addPublicKey_tokens grow st k q t hq ht hlt⟩,
    fun st k => ⟨mem_removePublicKey_user st k, fun q t hq ht =>
      mem_removePublicKey_tokens st k q t hq ht⟩,
    fun st p t v h => mem_setPermission_frame st v p t h,
    fun st p => mem_removePermission_frame st p,
    fun grow st m v h => mem_mutation_apply_frame grow st v m h,
    fun grow heap username n ms v h => ?_⟩
  have hf := mem_runMutations_frame grow ms _ v h
  exact ⟨hf.1, hf.2.1, hf.2.2.1, hf.2.2.2, hf.2.2.1.trans hf.2.2.2.symm⟩

theorem mutators_frame_witness :
    ∃ v : Mem.State,
      Mem.runMutations Mem.growslice { heap := [], user := Mem.NewUser "alice" 7 }
        [.setPassword "pw", .addPublicKey "a", .addPublicKey "b",
          .setPermission "/p" { ptr := 1, off := 0, len := 2, cap := 2 },
          .removePublicKey "a", .removePermission "/q"] = some v ∧
      v.user.Username = "alice" ∧ v.user.Uid = 1007 ∧ v.user.Uid = v.user.Gid :=
  have t := mutators_frame.2.2.2.2.2.2 Mem.growslice [] "alice" 7
    [.setPassword "pw", .addPublicKey "a", .addPublicKey "b",
      .setPermission "/p" { ptr := 1, off := 0, len := 2, cap := 2 },
      .removePublicKey "a", .removePermission "/q"] _ rfl
  ⟨_, rfl, t.1, t.2.2.1, t.2.2.2.2⟩

/-! ## Add then remove -/

/-- C18, as stated, fails: the round trip can change another field. In the
state after `NewUser`, `AddPublicKey` of `a`, `b`, `c`,
`SetPermission("/p", u.PublicKeys)` and `RemovePublicKey("c")`, the key list
is `a b`, the key `k` is absent and the entry for `/p` reads `a b c`;
`AddPublicKey("k")` writes `k` in place into the spare cell of the shared
array, and after `RemovePublicKey("k")`, which returns true and leaves the key
list `a b`, the entry for `/p` reads `a b k`. -/
theorem add_then_remove_changes_shared_entry :
    Mem.sharedKeysSpare.map (fun st => Mem.readSlice st.heap st.user.PublicKeys)
      = some ["a", "b"] ∧
    Mem.sharedKeysSpare.map (fun st => st.tokens "/p") = some (some ["a", "b", "c"]) ∧
    Mem.sharedKeysSpare.map (fun st =>
      (Mem.RemovePublicKey (Mem.AddPublicKey Mem.growslice st "k") "k").2) = some true ∧
    Mem.sharedKeysSpare.map (fun st =>
      Mem.readSlice (Mem.RemovePublicKey (Mem.AddPublicKey Mem.growslice st "k") "k").1.heap
        (Mem.RemovePublicKey (Mem.AddPublicKey Mem.growslice st "k") "k").1.user.PublicKeys)
      = some ["a", "b"] ∧
    Mem.sharedKeysSpare.map (fun st =>
      (Mem.RemovePublicKey (Mem.AddPublicKey Mem.growslice st "k") "k").1.tokens "/p")
      = some (some ["a", "b", "k"]) := by
  refine ⟨by decide, by decide, by decide, by decide, by decide⟩

/-- C18, amended: add-then-remove round trip. On every record whose key list is
a well-formed slice and for every key `k` that is not an element of it,
`AddPublicKey k` followed by `RemovePublicKey k` returns true and restores the
elements of the key list, the same in the same order; of the record only the
header of the key list may differ, so `Username`, `Password`, `HomeDir`,
`Uid`, `Gid` and the table of permissions are as they were; and the tokens
read from an entry of the table are as they were when its slice is in an
allocated array other than that of the key list. -/
theorem mem_add_then_remove (grow : Nat → Nat → Nat) (st : Mem.State) (k : String)
    (hwf : st.user.PublicKeys.WF st.heap)
    (hk : k ∉ Mem.readSlice st.heap st.user.PublicKeys) :
    (Mem.RemovePublicKey (Mem.AddPublicKey grow st k) k).2 = true ∧
    Mem.readSlice (Mem.RemovePublicKey (Mem.AddPublicKey grow st k) k).1.heap
        (Mem.RemovePublicKey (Mem.AddPublicKey grow st k) k).1.user.PublicKeys
      = Mem.readSlice st.heap st.user.PublicKeys ∧
    (Mem.RemovePublicKey (Mem.AddPublicKey grow st k) k).1.user
      = { st.user with
          PublicKeys := (Mem.RemovePublicKey (Mem.AddPublicKey grow st k) k).1.user.PublicKeys } ∧
    (∀ (q : String) (t : Mem.Slice), st.user.permission q = some t →
      t.ptr ≠ st.user.PublicKeys.ptr → t.ptr < st.heap.length →
      (Mem.RemovePublicKey (Mem.AddPublicKey grow st k) k).1.tokens q = st.tokens q) := by
  have h1 := mem_addPublicKey_keys grow st k
    { zeroUser with PublicKeys := Mem.readSlice st.heap st.user.PublicKeys } rfl hwf
  have h2 := mem_removePublicKey_keys (Mem.AddPublicKey grow st k) k _ h1.1.symm h1.2
  rw [removePublicKey_addPublicKey_absent _ k hk] at h2
  have hu : (Mem.RemovePublicKey (Mem.AddPublicKey grow st k) k).1.user
      = { st.user with
          PublicKeys :=
            (Mem.RemovePublicKey (Mem.AddPublicKey grow st k) k).1.user.PublicKeys } := by
    have e1 := mem_removePublicKey_user (Mem.AddPublicKey grow st k) k
    have e2 := mem_addPublicKey_user grow st k
    rw [e2] at e1
    exact e1
  refine ⟨h2.2.1, h2.1, hu, fun q t hq ht hlt => ?_⟩
  have hp : (Mem.AddPublicKey grow st k).user.permission q = some t := by
    unfold Mem.User.permission at hq ⊢
    rw [mem_addPublicKey_user]
    exact hq
  have hne : t.ptr ≠ (Mem.AddPublicKey grow st k).user.PublicKeys.ptr := by
    rcases mem_addPublicKey_ptr grow st k with e | e
    · rw [e]; exact ht
    · rw [e]; omega
  rw [mem_removePublicKey_tokens _ k q t hp hne]
  exact mem_addPublicKey_tokens grow st k q t hq ht hlt

theorem mem_add_then_remove_witness :
    Mem.Slice.WF [["a", "b", ""], ["r", "w"]] { ptr := 0, off := 0, len := 2, cap := 3 } ∧
    "k" ∉ Mem.readSlice [["a", "b", ""], ["r", "w"]] { ptr := 0, off := 0, len := 2, cap := 3 } ∧
    Mem.readSlice
      (Mem.RemovePublicKey (Mem.AddPublicKey Mem.growslice
        { heap := [["a", "b", ""], ["r", "w"]]
          user := { Mem.NewUser "alice" 0 with
            PublicKeys := { ptr := 0, off := 0, len := 2, cap := 3 } } } "k") "k").1.heap
      (Mem.RemovePublicKey (Mem.AddPublicKey Mem.growslice
        { heap := [["a", "b", ""], ["r", "w"]]
          user := { Mem.NewUser "alice" 0 with
            PublicKeys := { ptr := 0, off := 0, len := 2, cap := 3 } } } "k")
        "k").1.user.PublicKeys = ["a", "b"] :=
  ⟨by decide, by decide,
    (mem_add_then_remove Mem.growslice
      { heap := [["a", "b", ""], ["r", "w"]]
        user := { Mem.NewUser "alice" 0 with
          PublicKeys := { ptr := 0, off := 0, len := 2, cap := 3 } } } "k"
      (by decide) (by decide)).2.1⟩

end Sftpd
